import Mathlib

/-!
Verification development for the GAT repository: a shallow embedding of the
graph data model, the batch coalescer (node renumbering, CLS injection,
undirected symmetrization), the content-addressed cache wrapper, and the
masked graph attention layer, together with proofs of the spec's testable
properties.
-/

/-- Embedding of `utils.Graph` / `SentGraph` (`src/Gat/utils.py`): a named tuple of the edge
list, the edge-type list, the "important node" list, and the optional mapping
from local node ids to vocabulary ids. -/
structure SentGraph where
  lsedge : List (Nat × Nat)
  lsedge_type : List Nat
  lsimp_node : List Nat
  nodeid2wordid : Option (List Nat)
deriving Repr, DecidableEq

/-- The tuple returned by `GATModel._coalesce_graph`
(`src/Gat/neural/models.py`): global edges, edge types, per-graph groups of
key nodes, global vocabulary ids, and position ids. -/
structure Coalesced where
  lsedge : List (Nat × Nat)
  lsedge_type : List Nat
  lslsimp_node : List (List Nat)
  nodeid2wordid : List Nat
  lsposition_id : List Nat
deriving Repr, DecidableEq

/-- Embedding of `GATForSeqClsf.connect_to_cls_node` (`src/Gat/neural/models.py`): append a
new node carrying `cls_id`, connect every important node to it with edge type
`head_to_cls_edge_type`, and make it the only important node.  The Python code
asserts `nodeid2wordid is not None` and `cls_id not in nodeid2wordid`; a failed
assertion is modelled as `none`. -/
def connect_to_cls_node (cls_id : Nat) (head_to_cls_edge_type : Nat)
    (sentgraph : SentGraph) : Option SentGraph :=
  match sentgraph.nodeid2wordid with
  | none => none
  | some nodeid2wordid =>
    if cls_id ∈ nodeid2wordid then none
    else
      let new_nodeid2wordid := nodeid2wordid ++ [cls_id]
      let new_cls_node := new_nodeid2wordid.length - 1
      let lshead_to_cls_edge :=
        sentgraph.lsimp_node.map (fun node => (node, new_cls_node))
      let lshead_to_cls_edge_type :=
        sentgraph.lsimp_node.map (fun _ => head_to_cls_edge_type)
      some
        { lsedge := sentgraph.lsedge ++ lshead_to_cls_edge
          lsedge_type := sentgraph.lsedge_type ++ lshead_to_cls_edge_type
          lsimp_node := [new_cls_node]
          nodeid2wordid := some new_nodeid2wordid }

/-- The renumbering loop of `GATModel._coalesce_graph`
(`src/Gat/neural/models.py`, identical to `GATModel.prepare_batch` in
`src/models.py` plus position ids): walk the batch keeping a node counter,
shifting each graph's edges and key nodes by the counter, concatenating edge
types, vocabulary ids, and `range(len(nodeid2wordid))` position ids.
`nodeid2wordid.extend(None)` would raise in Python, modelled as `none`. -/
def coalesceAux : Nat → List SentGraph → Option Coalesced
  | _, [] => some ⟨[], [], [], [], []⟩
  | counter, g :: gs =>
    match g.nodeid2wordid with
    | none => none
    | some one_nodeid2wordid =>
      match coalesceAux (counter + one_nodeid2wordid.length) gs with
      | none => none
      | some rest =>
        some
          { lsedge :=
              g.lsedge.map (fun edge => (edge.1 + counter, edge.2 + counter))
                ++ rest.lsedge
            lsedge_type := g.lsedge_type ++ rest.lsedge_type
            lslsimp_node :=
              g.lsimp_node.map (fun node => node + counter) :: rest.lslsimp_node
            nodeid2wordid := one_nodeid2wordid ++ rest.nodeid2wordid
            lsposition_id :=
              List.range one_nodeid2wordid.length ++ rest.lsposition_id }

/-- Canonicalize an edge as in both symmetrization code paths:
`if n1 > n2: n2, n1 = n1, n2`. -/
def canon (e : Nat × Nat) : Nat × Nat :=
  if e.1 > e.2 then (e.2, e.1) else e

/-- The undirected-mode dedup loop of `GATModel._coalesce_graph`
(`src/Gat/neural/models.py` lines 101-115): for each `(edge, type)` pair in
order, canonicalize; if the canonical pair was not seen yet, emit it and its
reverse with the current type and mark it seen.  The Python `set` is modelled
as the list of seen canonical pairs. -/
def symAux : List (Nat × Nat) → List ((Nat × Nat) × Nat) →
    List (Nat × Nat) × List Nat
  | _, [] => ([], [])
  | setedge, (e, edge_type) :: rest =>
    let c := canon e
    if c ∈ setedge then symAux setedge rest
    else
      let r := symAux (c :: setedge) rest
      ((c.1, c.2) :: (c.2, c.1) :: r.1, edge_type :: edge_type :: r.2)

/-- The full undirected-mode transform of `_coalesce_graph`, starting from an
empty seen-set and zipping edges with their types as the Python `for ... in
zip(lsedge, lsedge_type)` does. -/
def symmetrize (lsedge : List (Nat × Nat)) (lsedge_type : List Nat) :
    List (Nat × Nat) × List Nat :=
  symAux [] (lsedge.zip lsedge_type)

/-- Embedding of `GATModel._coalesce_graph` (`src/Gat/neural/models.py`): the renumbering
loop followed, in undirected mode, by the symmetrization pass over the global
edge list. -/
def coalesce_graph (undirected : Bool) (batch : List SentGraph) :
    Option Coalesced :=
  match coalesceAux 0 batch with
  | none => none
  | some c =>
    if undirected then
      let sym := symmetrize c.lsedge c.lsedge_type
      some { c with lsedge := sym.1, lsedge_type := sym.2 }
    else some c

/-- Insertion into a Python `dict` modelled on an association list: updating an
existing key keeps its position and replaces its value; a new key is appended.
This reproduces the insertion-order semantics of `dict_edge[node1] = node2`. -/
def dictInsert (d : List (Nat × Nat)) (k v : Nat) : List (Nat × Nat) :=
  if d.any (fun p => p.1 = k) then
    d.map (fun p => if p.1 = k then (k, v) else p)
  else d ++ [(k, v)]

/-- Embedding of `sorted_directed` (`src/Gat/utils.py` lines 111-117): canonicalize each
edge and store it in a `dict` keyed by the smaller endpoint, returning
`list(dict_edge.items())`. -/
def sorted_directed (lsedge : List (Nat × Nat)) : List (Nat × Nat) :=
  lsedge.foldl
    (fun dict_edge e =>
      let c := canon e
      dictInsert dict_edge c.1 c.2)
    []

/-- The undirected branch of `GATModel.prepare_batch` (`src/models.py` lines
87-93): `lsedge = sorted_directed(lsedge)`, mirror it, and append a full copy
of the original edge-type list. -/
def prepareBatchUndirected (lsedge : List (Nat × Nat))
    (lsedge_type : List Nat) : List (Nat × Nat) × List Nat :=
  let ls := sorted_directed lsedge
  (ls ++ ls.map (fun e => (e.2, e.1)), lsedge_type ++ lsedge_type)

/-- Node count of a graph: `len(one_nodeid2wordid)` in the coalescing loop. -/
def numNodes (g : SentGraph) : Nat :=
  (g.nodeid2wordid.getD []).length

/-- Cumulative node-count offset of the `i`-th graph in a batch. -/
def offsetAt (batch : List SentGraph) (i : Nat) : Nat :=
  (((batch.take i).map numNodes).sum)

/-- Total (`Option`-free) closed form of the coalescing loop, used to reason
about `coalesceAux` once every `nodeid2wordid` is known to be resolved. -/
def coalesceF : Nat → List SentGraph → Coalesced
  | _, [] => ⟨[], [], [], [], []⟩
  | counter, g :: gs =>
    let rest := coalesceF (counter + numNodes g) gs
    { lsedge :=
        g.lsedge.map (fun edge => (edge.1 + counter, edge.2 + counter))
          ++ rest.lsedge
      lsedge_type := g.lsedge_type ++ rest.lsedge_type
      lslsimp_node :=
        g.lsimp_node.map (fun node => node + counter) :: rest.lslsimp_node
      nodeid2wordid := (g.nodeid2wordid.getD []) ++ rest.nodeid2wordid
      lsposition_id := List.range (numNodes g) ++ rest.lsposition_id }

/-- Separator used by `Cacheable.__repr__`. -/
def dashStr : String := "-"

/-- Separator between an attribute name and its value in `Cacheable.__repr__`. -/
def underscoreStr : String := "_"

/-- Path separator of `Cacheable._cache_fp_for_attr`. -/
def slashStr : String := "/"

/-- Extension separator of `Cacheable._cache_fp_for_attr`. -/
def dotStr : String := "."

/-- The three storage kinds (`Literal["torch", "pkl", "json"]`) declared by
`Cacheable.cached_attrs` in `src/data.py`. -/
inductive PklingMethod
  | torch
  | pkl
  | json
deriving Repr, DecidableEq

/-- String form of a storage kind, used in cache file names. -/
def torchStr : String := "torch"

/-- String form of the pickle storage kind. -/
def pklStr : String := "pkl"

/-- String form of the json storage kind. -/
def jsonStr : String := "json"

/-- Storage kind to its file-name extension. -/
def pklingStr : PklingMethod → String
  | PklingMethod.torch => torchStr
  | PklingMethod.pkl => pklStr
  | PklingMethod.json => jsonStr

/-- Attribute valuation of a `Cacheable` instance: every Python attribute value
is modelled by its string representation (which is also what `__repr__`
interpolates). -/
def AttrValuation : Type := String → String

/-- The cache backing store: an association list from file path to serialized
blob; the head shadows older entries, so insertion models overwriting. -/
def CacheFS : Type := List (String × String)

/-- Static declaration of a cache-using stage: its type name, the declared
`cached_attrs` pairs, and the declared `lscache_uniquer_attr` names. -/
structure CacheSpec where
  type_name : String
  cached_attrs : List (PklingMethod × String)
  lscache_uniquer_attr : List String

/-- Python `setattr`: rebind one attribute in a valuation. -/
def setattr (v : AttrValuation) (attr blob : String) : AttrValuation :=
  fun x => if x = attr then blob else v x

/-- Embedding of `Cacheable.__repr__` (`src/data.py` lines 142-152), which is the cache
identity: `type_name + "-" + "-".join(f"{attr}_{getattr(self, attr)}" for attr
in lscache_uniquer_attr)`. -/
def cacheIdentity (spec : CacheSpec) (v : AttrValuation) : String :=
  spec.type_name ++ dashStr ++
    String.intercalate dashStr
      (spec.lscache_uniquer_attr.map (fun attr => attr ++ underscoreStr ++ v attr))

/-- Embedding of `Cacheable._cache_fp_for_attr`: `specific_cache_dir / f"{attr_name}.{pkling_method}"`. -/
def cache_fp_for_attr (dir : String) (pkling_method : PklingMethod)
    (attr_name : String) : String :=
  dir ++ slashStr ++ attr_name ++ dotStr ++ pklingStr pkling_method

/-- Embedding of `Cacheable.cached_exists`: every declared attribute has a blob under
this identity. -/
def cached_exists (dir : String) (cached_attrs : List (PklingMethod × String))
    (fs : CacheFS) : Bool :=
  cached_attrs.all
    (fun p => ((fs : List (String × String)).lookup (cache_fp_for_attr dir p.1 p.2)).isSome)

/-- Embedding of `Cacheable.from_cache`: for each declared attribute, read its blob and
bind it onto the instance; a missing file raises in Python, modelled as
`none`.  All three storage kinds deserialize successfully when the blob
exists. -/
def from_cache (dir : String) :
    List (PklingMethod × String) → AttrValuation → CacheFS → Option AttrValuation
  | [], v, _ => some v
  | (m, attr) :: rest, v, fs =>
    match (fs : List (String × String)).lookup (cache_fp_for_attr dir m attr) with
    | none => none
    | some blob => from_cache dir rest (setattr v attr blob) fs

/-- Embedding of `Cacheable.to_cache` (`src/data.py` lines 125-140): for each declared
attribute, serialize its current value.  The `torch` and `pkl` branches open
the file with `fp.open("wb")` and write; the `json` branch opens with
`fp.open()` — Python's default read mode — so `json.dump(obj, f)` always
raises (`FileNotFoundError` if the file is absent, otherwise
`io.UnsupportedOperation: not writable`); that branch is therefore modelled as
`none`. -/
def to_cache (dir : String) :
    List (PklingMethod × String) → AttrValuation → CacheFS → Option CacheFS
  | [], _, fs => some fs
  | (m, attr) :: rest, v, fs =>
    match m with
    | PklingMethod.json => none
    | _ => to_cache dir rest v ((cache_fp_for_attr dir m attr, v attr) :: fs)

/-- Which branch `Cacheable.__init__` took. -/
inductive InitEvent
  | loaded
  | processed
deriving Repr, DecidableEq

/-- Embedding of `Cacheable.__init__` (`src/data.py` lines 75-84): fix the cache
directory from the current `__repr__`, then `from_cache()` if
`cached_exists() and not ignore_cache`, else `process()` followed by
`to_cache()`.  `process` is the subclass hook, modelled as a function on
valuations; the result records which branch ran, the final attribute
valuation, and the final backing store. -/
def cacheableInit (spec : CacheSpec) (process : AttrValuation → AttrValuation)
    (ignore_cache : Bool) (v : AttrValuation) (fs : CacheFS) :
    Option (InitEvent × AttrValuation × CacheFS) :=
  let dir := cacheIdentity spec v
  if cached_exists dir spec.cached_attrs fs && !ignore_cache then
    (from_cache dir spec.cached_attrs v fs).map (fun v2 => (InitEvent.loaded, v2, fs))
  else
    let v2 := process v
    (to_cache dir spec.cached_attrs v2 fs).map (fun fs2 => (InitEvent.processed, v2, fs2))

/-- Type name used by the concrete witness stage (`VocabAndEmb` in
`src/data.py`). -/
def vocabAndEmbName : String := "VocabAndEmb"

/-- Declared pickled attribute of `VocabAndEmb`. -/
def idToWordAttr : String := "_id2word"

/-- Declared torch attribute of `VocabAndEmb`. -/
def embsAttr : String := "embs"

/-- Uniquer attribute of `VocabAndEmb`. -/
def lowerCaseAttr : String := "lower_case"

/-- Second uniquer attribute of `VocabAndEmb`. -/
def unkThresAttr : String := "unk_thres"

/-- Attribute name for the json failing-input stage. -/
def cfgAttr : String := "cfg"

/-- A concrete attribute value. -/
def oneStr : String := "1"

/-- Concrete stage declaration mirroring `VocabAndEmb.cached_attrs` (restricted
to its pickle and torch attributes) and two of its uniquer attributes. -/
def vocabAndEmbSpec : CacheSpec :=
  { type_name := vocabAndEmbName
    cached_attrs := [(PklingMethod.pkl, idToWordAttr), (PklingMethod.torch, embsAttr)]
    lscache_uniquer_attr := [lowerCaseAttr, unkThresAttr] }

/-- Concrete stage declaring one attribute with the json storage kind. -/
def jsonOnlySpec : CacheSpec :=
  { type_name := vocabAndEmbName
    cached_attrs := [(PklingMethod.json, cfgAttr)]
    lscache_uniquer_attr := [lowerCaseAttr] }

/-- AttrValuation assigning every attribute the same concrete value. -/
def constValuation : AttrValuation := fun _ => oneStr

/-- AttrValuation agreeing with `constValuation` on the uniquer attributes but
differing on the non-uniquer attribute `embs`. -/
def otherValuation : AttrValuation :=
  fun a => if a = embsAttr then cfgAttr else oneStr

/-- Adjacency mask built from an edge list as in the spec (`mask[src,dst]=1`). -/
def mkMask (edges : List (Nat × Nat)) (n : Nat) : Fin n → Fin n → Bool :=
  fun i j => decide ((i.val, j.val) ∈ edges)

/-- Modelled from the spec: one head of `GraphMultiHeadAttention`
(`Gat/neural/layers.py`, not shipped under `src/`).  For row `i`, logits exist
only where `mask i j` is set (elsewhere they are `-inf`, i.e. excluded from the
softmax); `expLogit i j` stands for the exponential of the raw logit, `value j`
for node `j`'s value vector.  A row whose mask is all zero has an empty softmax
support, and the layer special-cases it to emit a zero vector instead of NaN;
this is the `if denom = 0` branch. -/
def graphAttentionHead (n d : Nat) (mask : Fin n → Fin n → Bool)
    (expLogit : Fin n → Fin n → ℚ) (value : Fin n → Fin d → ℚ)
    (i : Fin n) (c : Fin d) : ℚ :=
  let denom := ∑ j : Fin n, if mask i j then expLogit i j else 0
  if denom = 0 then 0
  else (∑ j : Fin n, if mask i j then expLogit i j * value j c else 0) / denom

/-- Residual/concat flags handed to each attention layer. -/
structure GATLayerWrapperFlags where
  do_residual : Bool
  concat : Bool
deriving Repr, DecidableEq

/-- Embedding of the layer construction in `GATLayered.__init__`
(`src/Gat/neural/models.py` lines 24-41, same flags in `src/models.py`): the
`nmid_layers` mid layers get `do_residual=config.do_residual`, and the last
layer gets `do_residual=False, concat=False`.  The mid layers do not pass
`concat`, whose default is `True` (modelled from the spec: heads are
concatenated except in the final layer, which averages them). -/
def gatLayeredFlags (do_residual : Bool) (nmid_layers : Nat) :
    List GATLayerWrapperFlags :=
  List.replicate nmid_layers ⟨do_residual, true⟩ ++ [⟨false, false⟩]

theorem coalesceAux_eq_coalesceF (batch : List SentGraph) :
    ∀ counter, (∀ g ∈ batch, g.nodeid2wordid.isSome) →
      coalesceAux counter batch = some (coalesceF counter batch) := by
  induction batch with
  | nil => intro counter _; rfl
  | cons g gs ih =>
    intro counter h
    have hg : g.nodeid2wordid.isSome := h g (List.mem_cons_self g gs)
    obtain ⟨ws, hws⟩ := Option.isSome_iff_exists.mp hg
    have hrest := ih (counter + ws.length) (fun x hx => h x (List.mem_cons_of_mem g hx))
    simp only [coalesceAux, coalesceF, hws, hrest, numNodes, Option.getD_some]

theorem coalesceF_lsedge_type (batch : List SentGraph) :
    ∀ counter, (coalesceF counter batch).lsedge_type =
      (batch.map SentGraph.lsedge_type).flatten := by
  induction batch with
  | nil => intro _; rfl
  | cons g gs ih => intro counter; simp [coalesceF, ih]

theorem coalesceF_lsposition_id (batch : List SentGraph) :
    ∀ counter, (coalesceF counter batch).lsposition_id =
      (batch.map (fun g => List.range (numNodes g))).flatten := by
  induction batch with
  | nil => intro _; rfl
  | cons g gs ih => intro counter; simp [coalesceF, ih]

theorem coalesceF_groups_length (batch : List SentGraph) :
    ∀ counter, (coalesceF counter batch).lslsimp_node.length = batch.length := by
  induction batch with
  | nil => intro _; rfl
  | cons g gs ih => intro counter; simp [coalesceF, ih]

theorem offsetAt_cons_succ (g : SentGraph) (gs : List SentGraph) (i : Nat) :
    offsetAt (g :: gs) (i + 1) = numNodes g + offsetAt gs i := by
  simp [offsetAt]

theorem coalesceF_group_getD (batch : List SentGraph) :
    ∀ counter i, (hi : i < batch.length) →
      (coalesceF counter batch).lslsimp_node.getD i [] =
        (batch.get ⟨i, hi⟩).lsimp_node.map
          (fun node => node + (counter + offsetAt batch i)) := by
  induction batch with
  | nil => intro _ i hi; exact absurd hi (Nat.not_lt_zero i)
  | cons g gs ih =>
    intro counter i hi
    cases i with
    | zero =>
      simp only [coalesceF, List.getD_cons_zero, offsetAt,
        List.take_zero, List.map_nil, List.sum_nil, Nat.add_zero]
      rfl
    | succ n =>
      have hn : n < gs.length := Nat.lt_of_succ_lt_succ hi
      have hrec := ih (counter + numNodes g) n hn
      simp only [coalesceF, List.getD_cons_succ, List.get_cons_succ,
        offsetAt_cons_succ] at hrec ⊢
      rw [hrec, Nat.add_assoc]

theorem coalesceF_edge_mem (batch : List SentGraph) :
    ∀ counter i, (hi : i < batch.length) →
      ∀ e ∈ (batch.get ⟨i, hi⟩).lsedge,
        (e.1 + (counter + offsetAt batch i), e.2 + (counter + offsetAt batch i))
          ∈ (coalesceF counter batch).lsedge := by
  induction batch with
  | nil => intro _ i hi; exact absurd hi (Nat.not_lt_zero i)
  | cons g gs ih =>
    intro counter i hi e he
    cases i with
    | zero =>
      have he' : e ∈ g.lsedge := he
      simp only [coalesceF, offsetAt, List.take_zero, List.map_nil,
        List.sum_nil, Nat.add_zero, List.mem_append]
      exact Or.inl (List.mem_map.mpr ⟨e, he', rfl⟩)
    | succ n =>
      have hn : n < gs.length := Nat.lt_of_succ_lt_succ hi
      simp only [List.get_cons_succ] at he
      have hrec := ih (counter + numNodes g) n hn e he
      simp only [coalesceF, offsetAt_cons_succ, List.mem_append]
      right
      rw [Nat.add_assoc] at hrec
      exact hrec

/-- C1: coalescing offset correctness.  For every batch of resolved graphs,
`_coalesce_graph` (directed mode, i.e. the renumbering loop) succeeds, yields
exactly one key-node group per graph, concatenates the edge types unchanged,
gives each graph position ids `0..n_i-1`, and, for every graph `i`, shifts its
key nodes and each of its edges by `sum(n_1..n_i-1)`. -/
theorem coalesce_offset_correct (batch : List SentGraph)
    (h : ∀ g ∈ batch, g.nodeid2wordid.isSome) :
    ∃ c, coalesce_graph false batch = some c ∧
      c.lslsimp_node.length = batch.length ∧
      c.lsedge_type = (batch.map SentGraph.lsedge_type).flatten ∧
      c.lsposition_id = (batch.map (fun g => List.range (numNodes g))).flatten ∧
      ∀ i, (hi : i < batch.length) →
        c.lslsimp_node.getD i [] =
          (batch.get ⟨i, hi⟩).lsimp_node.map
            (fun node => node + offsetAt batch i) ∧
        ∀ e ∈ (batch.get ⟨i, hi⟩).lsedge,
          (e.1 + offsetAt batch i, e.2 + offsetAt batch i) ∈ c.lsedge := by
  refine ⟨coalesceF 0 batch, ?_, ?_, ?_, ?_, ?_⟩
  · unfold coalesce_graph
    rw [coalesceAux_eq_coalesceF batch 0 h]
    rfl
  · exact coalesceF_groups_length batch 0
  · exact coalesceF_lsedge_type batch 0
  · exact coalesceF_lsposition_id batch 0
  · intro i hi
    constructor
    · have := coalesceF_group_getD batch 0 i hi
      simpa using this
    · intro e he
      have := coalesceF_edge_mem batch 0 i hi e he
      simpa using this

/-- Witness for C1 at the concrete two-graph batch of the end-to-end
scenario. -/
theorem coalesce_offset_correct_witness :
    (∀ g ∈ [(⟨[(0,1),(1,2)], [0,2], [2], some [5,6,9]⟩ : SentGraph),
             ⟨[(0,1),(1,2)], [1,2], [2], some [7,8,9]⟩],
        g.nodeid2wordid.isSome) ∧
    (∃ c, coalesce_graph false
        [(⟨[(0,1),(1,2)], [0,2], [2], some [5,6,9]⟩ : SentGraph),
         ⟨[(0,1),(1,2)], [1,2], [2], some [7,8,9]⟩] = some c ∧
      c.lslsimp_node.length = 2 ∧
      c.lsedge_type =
        ([(⟨[(0,1),(1,2)], [0,2], [2], some [5,6,9]⟩ : SentGraph),
          ⟨[(0,1),(1,2)], [1,2], [2], some [7,8,9]⟩].map
            SentGraph.lsedge_type).flatten ∧
      c.lsposition_id =
        ([(⟨[(0,1),(1,2)], [0,2], [2], some [5,6,9]⟩ : SentGraph),
          ⟨[(0,1),(1,2)], [1,2], [2], some [7,8,9]⟩].map
            (fun g => List.range (numNodes g))).flatten ∧
      ∀ i, (hi : i < ([(⟨[(0,1),(1,2)], [0,2], [2], some [5,6,9]⟩ : SentGraph),
          ⟨[(0,1),(1,2)], [1,2], [2], some [7,8,9]⟩] : List SentGraph).length) →
        c.lslsimp_node.getD i [] =
          (([(⟨[(0,1),(1,2)], [0,2], [2], some [5,6,9]⟩ : SentGraph),
             ⟨[(0,1),(1,2)], [1,2], [2], some [7,8,9]⟩] : List SentGraph).get
              ⟨i, hi⟩).lsimp_node.map
            (fun node => node + offsetAt
              [(⟨[(0,1),(1,2)], [0,2], [2], some [5,6,9]⟩ : SentGraph),
               ⟨[(0,1),(1,2)], [1,2], [2], some [7,8,9]⟩] i) ∧
        ∀ e ∈ (([(⟨[(0,1),(1,2)], [0,2], [2], some [5,6,9]⟩ : SentGraph),
             ⟨[(0,1),(1,2)], [1,2], [2], some [7,8,9]⟩] : List SentGraph).get
              ⟨i, hi⟩).lsedge,
          (e.1 + offsetAt
              [(⟨[(0,1),(1,2)], [0,2], [2], some [5,6,9]⟩ : SentGraph),
               ⟨[(0,1),(1,2)], [1,2], [2], some [7,8,9]⟩] i,
           e.2 + offsetAt
              [(⟨[(0,1),(1,2)], [0,2], [2], some [5,6,9]⟩ : SentGraph),
               ⟨[(0,1),(1,2)], [1,2], [2], some [7,8,9]⟩] i) ∈ c.lsedge) := by
  constructor
  · decide
  · exact coalesce_offset_correct
      [⟨[(0,1),(1,2)], [0,2], [2], some [5,6,9]⟩,
       ⟨[(0,1),(1,2)], [1,2], [2], some [7,8,9]⟩] (by decide)

/-- C2: end-to-end scenario.  Injecting the CLS node with vocab id 9 and edge
type 2 into the two single-edge graphs, then coalescing, yields global
vocabulary ids `[5,6,9,7,8,9]`, edges `(0,1),(1,2)` for the first example and
`(3,4),(4,5)` for the second, and key-node groups `[[2],[5]]`. -/
theorem end_to_end_scenario :
    ∃ g1 g2 c,
      connect_to_cls_node 9 2 ⟨[(0,1)], [0], [1], some [5,6]⟩ = some g1 ∧
      connect_to_cls_node 9 2 ⟨[(0,1)], [1], [1], some [7,8]⟩ = some g2 ∧
      coalesce_graph false [g1, g2] = some c ∧
      c.nodeid2wordid = [5,6,9,7,8,9] ∧
      (0,1) ∈ c.lsedge ∧ (1,2) ∈ c.lsedge ∧
      (3,4) ∈ c.lsedge ∧ (4,5) ∈ c.lsedge ∧
      c.lslsimp_node = [[2],[5]] := by
  refine ⟨⟨[(0,1),(1,2)], [0,2], [2], some [5,6,9]⟩,
          ⟨[(0,1),(1,2)], [1,2], [2], some [7,8,9]⟩,
          ⟨[(0,1),(1,2),(3,4),(4,5)], [0,2,1,2], [[2],[5]],
           [5,6,9,7,8,9], [0,1,2,0,1,2]⟩,
          ?_, ?_, ?_, rfl, ?_, ?_, ?_, ?_, rfl⟩ <;> decide

theorem canon_canon (e : Nat × Nat) : canon (canon e) = canon e := by
  rcases e with ⟨a, b⟩
  simp only [canon]
  split_ifs <;> simp_all [Prod.ext_iff]
  all_goals omega

theorem canon_swap (e : Nat × Nat) :
    canon ((canon e).2, (canon e).1) = canon e := by
  rcases e with ⟨a, b⟩
  simp only [canon]
  split_ifs <;> simp_all [Prod.ext_iff]
  all_goals omega

theorem eq_canon_or_swap (c : Nat × Nat) :
    c = canon c ∨ c = ((canon c).2, (canon c).1) := by
  rcases c with ⟨a, b⟩
  simp only [canon]
  split_ifs with h
  · right; rfl
  · left; rfl

theorem symAux_skip (e0 : Nat × Nat) (t0 : Nat)
    (rest : List ((Nat × Nat) × Nat)) (seen : List (Nat × Nat))
    (hseen : canon e0 ∈ seen) :
    symAux seen ((e0, t0) :: rest) = symAux seen rest := by
  simp [symAux, hseen]

theorem symAux_fresh (e0 : Nat × Nat) (t0 : Nat)
    (rest : List ((Nat × Nat) × Nat)) (seen : List (Nat × Nat))
    (hseen : canon e0 ∉ seen) :
    symAux seen ((e0, t0) :: rest) =
      (canon e0 :: ((canon e0).2, (canon e0).1) ::
          (symAux (canon e0 :: seen) rest).1,
        t0 :: t0 :: (symAux (canon e0 :: seen) rest).2) := by
  simp [symAux, hseen]

theorem find?_cons_true {α : Type} (p : α → Bool) (a : α) (l : List α)
    (h : p a = true) : (a :: l).find? p = some a := by
  simp [List.find?, h]

theorem find?_cons_false {α : Type} (p : α → Bool) (a : α) (l : List α)
    (h : p a = false) : (a :: l).find? p = l.find? p := by
  simp [List.find?, h]

theorem symAux_zip_mem (c : Nat × Nat) (u : Nat)
    (l : List ((Nat × Nat) × Nat)) :
    ∀ seen, ((c, u) ∈ (symAux seen l).1.zip (symAux seen l).2) ↔
      (canon c ∉ seen ∧
        ∃ e, l.find? (fun p => decide (canon p.1 = canon c)) = some (e, u)) := by
  induction l with
  | nil =>
    intro seen
    simp [symAux]
  | cons p rest ih =>
    rcases p with ⟨e0, t0⟩
    intro seen
    by_cases hseen : canon e0 ∈ seen
    · rw [symAux_skip e0 t0 rest seen hseen]
      by_cases hc : canon e0 = canon c
      · rw [ih seen]
        constructor
        · rintro ⟨hnot, -⟩
          exact absurd (hc ▸ hseen) hnot
        · rintro ⟨hnot, -⟩
          exact absurd (hc ▸ hseen) hnot
      · rw [ih seen,
          find?_cons_false (fun p => decide (canon p.1 = canon c)) (e0, t0)
            rest (by simp [hc])]
    · rw [symAux_fresh e0 t0 rest seen hseen]
      simp only [List.zip_cons_cons, List.mem_cons]
      by_cases hc : canon e0 = canon c
      · rw [find?_cons_true (fun p => decide (canon p.1 = canon c)) (e0, t0)
          rest (by simp [hc])]
        constructor
        · rintro (h1 | h2 | h3)
          · have hu : u = t0 := congrArg Prod.snd h1
            exact ⟨hc ▸ hseen, e0, by rw [hu]⟩
          · have hu : u = t0 := congrArg Prod.snd h2
            exact ⟨hc ▸ hseen, e0, by rw [hu]⟩
          · have h4 := (ih (canon e0 :: seen)).mp h3
            exact absurd (List.mem_cons_self _ _) (hc ▸ h4.1)
        · rintro ⟨-, e, he⟩
          have h6 : ((e0, t0) : (Nat × Nat) × Nat) = (e, u) := Option.some.inj he
          have hu : u = t0 := (congrArg Prod.snd h6).symm
          rcases eq_canon_or_swap c with hcc | hcc
          · left
            rw [hu, hcc, ← hc]
          · right; left
            rw [hu, hcc, ← hc]
      · rw [find?_cons_false (fun p => decide (canon p.1 = canon c)) (e0, t0)
          rest (by simp [hc])]
        constructor
        · rintro (h1 | h2 | h3)
          · have hcc : c = canon e0 := congrArg Prod.fst h1
            have hcan : canon c = canon e0 := by rw [hcc, canon_canon]
            exact absurd hcan.symm hc
          · have hcc : c = ((canon e0).2, (canon e0).1) := congrArg Prod.fst h2
            have hcan : canon c = canon e0 := by rw [hcc, canon_swap]
            exact absurd hcan.symm hc
          · have h4 := (ih (canon e0 :: seen)).mp h3
            exact ⟨fun hmem => h4.1 (List.mem_cons_of_mem _ hmem), h4.2⟩
        · rintro ⟨hnot, e, he⟩
          right; right
          refine (ih (canon e0 :: seen)).mpr ⟨?_, e, he⟩
          intro hmem
          rcases List.mem_cons.mp hmem with hmem | hmem
          · exact hc hmem.symm
          · exact hnot hmem

theorem symAux_closure (l : List ((Nat × Nat) × Nat)) :
    ∀ seen a b, ((a, b) ∈ (symAux seen l).1) → ((b, a) ∈ (symAux seen l).1) := by
  induction l with
  | nil =>
    intro seen a b hab
    simp [symAux] at hab
  | cons p rest ih =>
    rcases p with ⟨e0, t0⟩
    intro seen a b hab
    by_cases hseen : canon e0 ∈ seen
    · rw [symAux_skip e0 t0 rest seen hseen] at hab ⊢
      exact ih seen a b hab
    · rw [symAux_fresh e0 t0 rest seen hseen] at hab ⊢
      rcases List.mem_cons.mp hab with h1 | hab2
      · have ha : a = (canon e0).1 := congrArg Prod.fst h1
        have hb : b = (canon e0).2 := congrArg Prod.snd h1
        apply List.mem_cons_of_mem
        apply List.mem_cons.mpr
        left
        rw [ha, hb]
      · rcases List.mem_cons.mp hab2 with h2 | h3
        · have ha : a = (canon e0).2 := congrArg Prod.fst h2
          have hb : b = (canon e0).1 := congrArg Prod.snd h2
          apply List.mem_cons.mpr
          left
          rw [ha, hb]
        · exact List.mem_cons_of_mem _
            (List.mem_cons_of_mem _ (ih (canon e0 :: seen) a b h3))

theorem card_insert_eq_card_erase_add_one {α : Type} [DecidableEq α]
    (s : Finset α) (a : α) : (insert a s).card = (s.erase a).card + 1 := by
  by_cases h : a ∈ s
  · rw [Finset.insert_eq_self.mpr h, Finset.card_erase_of_mem h]
    have := Finset.card_pos.mpr ⟨a, h⟩
    omega
  · rw [Finset.card_insert_of_not_mem h, Finset.erase_eq_of_not_mem h]

theorem symAux_length (l : List ((Nat × Nat) × Nat)) :
    ∀ seen : List (Nat × Nat),
      (symAux seen l).1.length =
        2 * ((l.map (fun p => canon p.1)).toFinset \ seen.toFinset).card := by
  induction l with
  | nil =>
    intro seen
    simp [symAux]
  | cons p rest ih =>
    rcases p with ⟨e0, t0⟩
    intro seen
    by_cases hseen : canon e0 ∈ seen
    · rw [symAux_skip e0 t0 rest seen hseen, ih seen]
      have h1 :
          ((((e0, t0) :: rest).map (fun p => canon p.1)).toFinset
              : Finset (Nat × Nat)) =
            insert (canon e0) ((rest.map (fun p => canon p.1)).toFinset) := by
        simp
      rw [h1, Finset.insert_sdiff_of_mem _ (List.mem_toFinset.mpr hseen)]
    · rw [symAux_fresh e0 t0 rest seen hseen]
      simp only [List.length_cons]
      rw [ih (canon e0 :: seen)]
      have h1 :
          ((((e0, t0) :: rest).map (fun p => canon p.1)).toFinset
              : Finset (Nat × Nat)) =
            insert (canon e0) ((rest.map (fun p => canon p.1)).toFinset) := by
        simp
      have h2 : ((canon e0 :: seen).toFinset : Finset (Nat × Nat)) =
          insert (canon e0) seen.toFinset := by
        simp
      rw [h1, h2, Finset.sdiff_insert,
        Finset.insert_sdiff_of_not_mem _
          (fun hmem => hseen (List.mem_toFinset.mp hmem)),
        card_insert_eq_card_erase_add_one]
      ring

/-- Closure and count for the set-based symmetrization of `_coalesce_graph`:
every emitted edge has its reverse emitted, and the output has exactly twice
as many edges as there are distinct canonical undirected pairs in the input.
This is the behavior the spec describes; see
`sorted_directed_drops_distinct_pair` for the legacy code path that violates
it. -/
theorem symmetrize_closure_count (lsedge : List (Nat × Nat))
    (lsedge_type : List Nat) (h : lsedge.length = lsedge_type.length) :
    (∀ a b, ((a, b) ∈ (symmetrize lsedge lsedge_type).1) →
      ((b, a) ∈ (symmetrize lsedge lsedge_type).1)) ∧
    (symmetrize lsedge lsedge_type).1.length =
      2 * (lsedge.map canon).toFinset.card := by
  constructor
  · intro a b hab
    exact symAux_closure (lsedge.zip lsedge_type) [] a b hab
  · rw [symmetrize, symAux_length]
    have hmap : ((lsedge.zip lsedge_type).map (fun p => canon p.1)) =
        lsedge.map canon := by
      have hcomp : (fun p : (Nat × Nat) × Nat => canon p.1) =
          (canon ∘ Prod.fst) := rfl
      rw [hcomp, ← List.map_map, List.map_fst_zip _ _ (le_of_eq h)]
    rw [hmap]
    simp

theorem symmetrize_closure_count_witness :
    (([(0,1),(0,2)] : List (Nat × Nat)).length = ([0,1] : List Nat).length) ∧
    (∀ a b, ((a, b) ∈ (symmetrize [(0,1),(0,2)] [0,1]).1) →
      ((b, a) ∈ (symmetrize [(0,1),(0,2)] [0,1]).1)) ∧
    (symmetrize [(0,1),(0,2)] [0,1]).1.length =
      2 * (([(0,1),(0,2)] : List (Nat × Nat)).map canon).toFinset.card :=
  ⟨by decide,
   (symmetrize_closure_count [(0,1),(0,2)] [0,1] (by decide)).1,
   (symmetrize_closure_count [(0,1),(0,2)] [0,1] (by decide)).2⟩

/-- C5: first-seen type wins.  A pair `(edge, type)` occurs in the symmetrized
output exactly when `type` is the type of the first input occurrence whose
canonical form matches the edge's canonical form: the kept type for each
canonical pair is the first occurrence's, later duplicates' types are silently
dropped (and `symmetrize` is total, so no error is ever raised). -/
theorem symmetrize_first_type_wins (lsedge : List (Nat × Nat))
    (lsedge_type : List Nat) (c : Nat × Nat) (u : Nat) :
    ((c, u) ∈ (symmetrize lsedge lsedge_type).1.zip
        (symmetrize lsedge lsedge_type).2) ↔
      ∃ e, (lsedge.zip lsedge_type).find?
          (fun p => decide (canon p.1 = canon c)) = some (e, u) := by
  have h := symAux_zip_mem c u (lsedge.zip lsedge_type) []
  simpa [symmetrize] using h

/-- C3 (failing evaluation): on the input edges `[(0,1),(0,2)]` with types
`[0,1]`, the `sorted_directed`-based undirected path of
`GATModel.prepare_batch` (`src/models.py`) keeps only `(0,2)` — its `dict` is
keyed by the canonical source node alone, so the distinct undirected pair
`(0,1)` is dropped — producing 2 output edges (with 4 edge types, breaking
`len(edges) == len(edge_types)`) where the claim requires
`2 * 2 = 4`; the set-based symmetrization of `_coalesce_graph`
(`src/Gat/neural/models.py`) satisfies the claim on the same input. -/
theorem sorted_directed_drops_distinct_pair :
    prepareBatchUndirected [(0,1),(0,2)] [0,1] = ([(0,2),(2,0)], [0,1,0,1]) ∧
    (([(0,1),(0,2)] : List (Nat × Nat)).map canon).toFinset.card = 2 ∧
    (prepareBatchUndirected [(0,1),(0,2)] [0,1]).1.length = 2 ∧
    (prepareBatchUndirected [(0,1),(0,2)] [0,1]).1.length ≠
      2 * (([(0,1),(0,2)] : List (Nat × Nat)).map canon).toFinset.card ∧
    (symmetrize [(0,1),(0,2)] [0,1]).1.length =
      2 * (([(0,1),(0,2)] : List (Nat × Nat)).map canon).toFinset.card := by
  refine ⟨?_, ?_, ?_, ?_, ?_⟩ <;> decide

/-- C4: CLS injection guard.  `connect_to_cls_node` succeeds on a resolved
graph exactly when `cls_id` is absent from `nodeid2wordid` (the failed
assertion — the spec's `PrecursorViolation` — is modelled as `none`), and a
second injection with the same `cls_id` on any successful result always fails,
because the id is then present. -/
theorem connect_to_cls_guard (cls_id het : Nat) (g : SentGraph) :
    (∀ ws, g.nodeid2wordid = some ws →
      ((connect_to_cls_node cls_id het g).isSome ↔ cls_id ∉ ws)) ∧
    (∀ g2, connect_to_cls_node cls_id het g = some g2 →
      connect_to_cls_node cls_id het g2 = none) := by
  constructor
  · intro ws hws
    by_cases hmem : cls_id ∈ ws
    · simp [connect_to_cls_node, hws, hmem]
    · simp [connect_to_cls_node, hws, hmem]
  · intro g2 hg2
    rcases hn : g.nodeid2wordid with - | ws
    · simp [connect_to_cls_node, hn] at hg2
    · by_cases hmem : cls_id ∈ ws
      · simp [connect_to_cls_node, hn, hmem] at hg2
      · simp only [connect_to_cls_node, hn, if_neg hmem] at hg2
        obtain rfl := Option.some.inj hg2
        simp [connect_to_cls_node, List.mem_append]

/-- Witness for C4 at the first end-to-end scenario graph. -/
theorem connect_to_cls_guard_witness :
    ((connect_to_cls_node 9 2 ⟨[(0,1)], [0], [1], some [5,6]⟩).isSome ↔
      9 ∉ ([5,6] : List Nat)) ∧
    connect_to_cls_node 9 2 ⟨[(0,1),(1,2)], [0,2], [2], some [5,6,9]⟩ = none :=
  ⟨(connect_to_cls_guard 9 2 ⟨[(0,1)], [0], [1], some [5,6]⟩).1 [5,6] rfl,
   (connect_to_cls_guard 9 2 ⟨[(0,1)], [0], [1], some [5,6]⟩).2
     ⟨[(0,1),(1,2)], [0,2], [2], some [5,6,9]⟩ (by decide)⟩

theorem map_congr_mem {α β : Type} (l : List α) (f g : α → β)
    (h : ∀ a ∈ l, f a = g a) : l.map f = l.map g := by
  induction l with
  | nil => rfl
  | cons a l ih =>
    simp only [List.map_cons, h a (List.mem_cons_self a l)]
    rw [ih (fun x hx => h x (List.mem_cons_of_mem _ hx))]

/-- C6: cache identity determinism.  The identity string is
`type_name + "-" + "-".join(attr + "_" + value)` over the declared uniquer
attributes, and two stages of equal type whose uniquer attributes have equal
values produce the same identity, independent of any non-uniquer state. -/
theorem cache_identity_deterministic (s1 s2 : CacheSpec)
    (v1 v2 : AttrValuation)
    (htype : s1.type_name = s2.type_name)
    (hattrs : s1.lscache_uniquer_attr = s2.lscache_uniquer_attr)
    (hvals : ∀ a ∈ s1.lscache_uniquer_attr, v1 a = v2 a) :
    cacheIdentity s1 v1 = cacheIdentity s2 v2 ∧
    cacheIdentity s1 v1 = s1.type_name ++ dashStr ++
      String.intercalate dashStr
        (s1.lscache_uniquer_attr.map
          (fun attr => attr ++ underscoreStr ++ v1 attr)) := by
  refine ⟨?_, rfl⟩
  unfold cacheIdentity
  rw [htype, ← hattrs]
  have hmap :
      s1.lscache_uniquer_attr.map (fun attr => attr ++ underscoreStr ++ v1 attr) =
        s1.lscache_uniquer_attr.map
          (fun attr => attr ++ underscoreStr ++ v2 attr) :=
    map_congr_mem _ _ _ (fun a ha => by rw [hvals a ha])
  rw [hmap]

/-- Witness for C6: two valuations differing only on the non-uniquer attribute
`embs` yield the same identity. -/
theorem cache_identity_deterministic_witness :
    (∀ a ∈ vocabAndEmbSpec.lscache_uniquer_attr,
      constValuation a = otherValuation a) ∧
    constValuation embsAttr ≠ otherValuation embsAttr ∧
    cacheIdentity vocabAndEmbSpec constValuation =
      cacheIdentity vocabAndEmbSpec otherValuation :=
  ⟨by decide, by decide,
   (cache_identity_deterministic vocabAndEmbSpec vocabAndEmbSpec
     constValuation otherValuation rfl rfl (by decide)).1⟩

theorem to_cache_nil (dir : String) (v : AttrValuation) (fs : CacheFS) :
    to_cache dir [] v fs = some fs := rfl

theorem to_cache_cons_torch (dir : String) (attr : String)
    (rest : List (PklingMethod × String)) (v : AttrValuation) (fs : CacheFS) :
    to_cache dir ((PklingMethod.torch, attr) :: rest) v fs =
      to_cache dir rest v
        ((cache_fp_for_attr dir PklingMethod.torch attr, v attr) :: fs) := rfl

theorem to_cache_cons_pkl (dir : String) (attr : String)
    (rest : List (PklingMethod × String)) (v : AttrValuation) (fs : CacheFS) :
    to_cache dir ((PklingMethod.pkl, attr) :: rest) v fs =
      to_cache dir rest v
        ((cache_fp_for_attr dir PklingMethod.pkl attr, v attr) :: fs) := rfl

theorem to_cache_cons_json (dir : String) (attr : String)
    (rest : List (PklingMethod × String)) (v : AttrValuation) (fs : CacheFS) :
    to_cache dir ((PklingMethod.json, attr) :: rest) v fs = none := rfl

theorem from_cache_isSome_of_cached_exists (dir : String) :
    ∀ (attrs : List (PklingMethod × String)) (v : AttrValuation) (fs : CacheFS),
      cached_exists dir attrs fs = true →
      ∃ v2, from_cache dir attrs v fs = some v2 := by
  intro attrs
  induction attrs with
  | nil =>
    intro v fs _
    exact ⟨v, rfl⟩
  | cons p rest ih =>
    intro v fs h
    rcases p with ⟨m, attr⟩
    simp only [cached_exists, List.all_cons, Bool.and_eq_true] at h
    obtain ⟨h1, h2⟩ := h
    obtain ⟨blob, hblob⟩ := Option.isSome_iff_exists.mp h1
    obtain ⟨v2, hv2⟩ := ih (setattr v attr blob) fs h2
    refine ⟨v2, ?_⟩
    rw [from_cache, hblob]
    exact hv2

theorem to_cache_isSome (dir : String) :
    ∀ (attrs : List (PklingMethod × String)) (v : AttrValuation) (fs : CacheFS),
      (∀ p ∈ attrs, p.1 ≠ PklingMethod.json) →
      ∃ fs2, to_cache dir attrs v fs = some fs2 := by
  intro attrs
  induction attrs with
  | nil =>
    intro v fs _
    exact ⟨fs, rfl⟩
  | cons p rest ih =>
    intro v fs h
    rcases p with ⟨m, attr⟩
    have hm := h (m, attr) (List.mem_cons_self _ _)
    have hrest := fun q hq => h q (List.mem_cons_of_mem _ hq)
    cases m with
    | json => exact absurd rfl hm
    | torch =>
      rw [to_cache_cons_torch]
      exact ih v _ hrest
    | pkl =>
      rw [to_cache_cons_pkl]
      exact ih v _ hrest

theorem lookup_cons_isSome (k key val : String) (fs : CacheFS)
    (h : ((fs : List (String × String)).lookup k).isSome) :
    ((((key, val) :: fs) : List (String × String)).lookup k).isSome := by
  rw [List.lookup]
  split
  · rfl
  · exact h

theorem to_cache_preserves (dir : String) :
    ∀ (attrs : List (PklingMethod × String)) (v : AttrValuation)
      (fs fs2 : CacheFS), to_cache dir attrs v fs = some fs2 →
      ∀ k, ((fs : List (String × String)).lookup k).isSome →
        ((fs2 : List (String × String)).lookup k).isSome := by
  intro attrs
  induction attrs with
  | nil =>
    intro v fs fs2 h k hk
    rw [to_cache_nil] at h
    obtain rfl := Option.some.inj h
    exact hk
  | cons p rest ih =>
    intro v fs fs2 h k hk
    rcases p with ⟨m, attr⟩
    cases m with
    | json =>
      rw [to_cache_cons_json] at h
      cases h
    | torch =>
      rw [to_cache_cons_torch] at h
      exact ih v _ fs2 h k (lookup_cons_isSome k _ _ fs hk)
    | pkl =>
      rw [to_cache_cons_pkl] at h
      exact ih v _ fs2 h k (lookup_cons_isSome k _ _ fs hk)

theorem lookup_cons_self_isSome (key val : String) (fs : CacheFS) :
    ((((key, val) :: fs) : List (String × String)).lookup key).isSome := by
  rw [List.lookup]
  split
  · rfl
  · rename_i hfalse
    simp at hfalse

theorem to_cache_writes (dir : String) :
    ∀ (attrs : List (PklingMethod × String)) (v : AttrValuation)
      (fs fs2 : CacheFS), to_cache dir attrs v fs = some fs2 →
      ∀ p ∈ attrs,
        ((fs2 : List (String × String)).lookup
          (cache_fp_for_attr dir p.1 p.2)).isSome := by
  intro attrs
  induction attrs with
  | nil =>
    intro v fs fs2 _ p hp
    simp at hp
  | cons q rest ih =>
    intro v fs fs2 h p hp
    rcases q with ⟨m, attr⟩
    cases m with
    | json =>
      rw [to_cache_cons_json] at h
      cases h
    | torch =>
      rw [to_cache_cons_torch] at h
      rcases List.mem_cons.mp hp with rfl | hp2
      · exact to_cache_preserves dir rest v _ fs2 h _
          (lookup_cons_self_isSome _ _ fs)
      · exact ih v _ fs2 h p hp2
    | pkl =>
      rw [to_cache_cons_pkl] at h
      rcases List.mem_cons.mp hp with rfl | hp2
      · exact to_cache_preserves dir rest v _ fs2 h _
          (lookup_cons_self_isSome _ _ fs)
      · exact ih v _ fs2 h p hp2

/-- C7: cache round trip.  With no json-kind attributes declared, a
construction loads exactly when `ignore_cache` is false and every declared
blob exists under the stage's identity; otherwise it runs `process` and then
stores.  In particular, starting from a store where the stage is not cached,
the first construction processes and the second construction (same uniquer
values, hence same identity) loads from the store the first one wrote, so
`process` runs exactly once across the two constructions. -/
theorem cache_round_trip (spec : CacheSpec)
    (process : AttrValuation → AttrValuation) (v : AttrValuation)
    (fs : CacheFS)
    (hnj : ∀ p ∈ spec.cached_attrs, p.1 ≠ PklingMethod.json) :
    (cached_exists (cacheIdentity spec v) spec.cached_attrs fs = true →
      ∃ v2, cacheableInit spec process false v fs =
        some (InitEvent.loaded, v2, fs)) ∧
    (∀ ig, (cached_exists (cacheIdentity spec v) spec.cached_attrs fs = false ∨
        ig = true) →
      ∃ fs2, cacheableInit spec process ig v fs =
        some (InitEvent.processed, process v, fs2)) ∧
    (cached_exists (cacheIdentity spec v) spec.cached_attrs fs = false →
      ∃ fs2, cacheableInit spec process false v fs =
          some (InitEvent.processed, process v, fs2) ∧
        ∃ v2, cacheableInit spec process false v fs2 =
          some (InitEvent.loaded, v2, fs2)) := by
  have hload : ∀ fs3 : CacheFS,
      cached_exists (cacheIdentity spec v) spec.cached_attrs fs3 = true →
      ∃ v2, cacheableInit spec process false v fs3 =
        some (InitEvent.loaded, v2, fs3) := by
    intro fs3 hex
    obtain ⟨v2, hv2⟩ := from_cache_isSome_of_cached_exists
      (cacheIdentity spec v) spec.cached_attrs v fs3 hex
    refine ⟨v2, ?_⟩
    unfold cacheableInit
    simp [hex, hv2]
  have hproc : ∀ ig,
      (cached_exists (cacheIdentity spec v) spec.cached_attrs fs = false ∨
        ig = true) →
      ∃ fs2, cacheableInit spec process ig v fs =
        some (InitEvent.processed, process v, fs2) := by
    intro ig hcond
    obtain ⟨fs2, hfs2⟩ := to_cache_isSome (cacheIdentity spec v)
      spec.cached_attrs (process v) fs hnj
    refine ⟨fs2, ?_⟩
    unfold cacheableInit
    rcases hcond with hf | rfl
    · simp [hf, hfs2]
    · simp [hfs2]
  refine ⟨hload fs, hproc, ?_⟩
  intro hf
  obtain ⟨fs2, hfs2⟩ := to_cache_isSome (cacheIdentity spec v)
    spec.cached_attrs (process v) fs hnj
  have hinit : cacheableInit spec process false v fs =
      some (InitEvent.processed, process v, fs2) := by
    unfold cacheableInit
    simp [hf, hfs2]
  have hex2 : cached_exists (cacheIdentity spec v) spec.cached_attrs fs2 =
      true := by
    apply List.all_eq_true.mpr
    intro p hp
    exact to_cache_writes (cacheIdentity spec v) spec.cached_attrs
      (process v) fs fs2 hfs2 p hp
  exact ⟨fs2, hinit, hload fs2 hex2⟩

/-- Witness for C7: the concrete `VocabAndEmb`-shaped stage against an empty
store processes on the first construction and loads on the second. -/
theorem cache_round_trip_witness :
    (∀ p ∈ vocabAndEmbSpec.cached_attrs, p.1 ≠ PklingMethod.json) ∧
    cached_exists (cacheIdentity vocabAndEmbSpec constValuation)
      vocabAndEmbSpec.cached_attrs [] = false ∧
    (∃ fs2, cacheableInit vocabAndEmbSpec (fun v => v) false constValuation [] =
        some (InitEvent.processed, constValuation, fs2) ∧
      ∃ v2, cacheableInit vocabAndEmbSpec (fun v => v) false constValuation fs2 =
        some (InitEvent.loaded, v2, fs2)) :=
  ⟨by decide, by rfl,
   (cache_round_trip vocabAndEmbSpec (fun v => v) constValuation []
     (by decide)).2.2 (by rfl)⟩

/-- C8 (failing evaluation): `to_cache` on a stage declaring a json-kind
attribute always fails — the json branch opens the file in Python's default
read mode before `json.dump` — so a stage declaring the supported
structured-record kind can never be stored, and its construction fails instead
of leaving every declared attribute persisted. -/
theorem to_cache_json_always_fails :
    to_cache (cacheIdentity jsonOnlySpec constValuation)
      jsonOnlySpec.cached_attrs constValuation [] = none ∧
    cacheableInit jsonOnlySpec (fun v => v) false constValuation [] = none := by
  exact ⟨rfl, rfl⟩

theorem getD_replicate_of_lt {α : Type} (a d : α) :
    ∀ (n i : Nat), i < n → (List.replicate n a).getD i d = a := by
  intro n
  induction n with
  | zero =>
    intro i hi
    exact absurd hi (Nat.not_lt_zero i)
  | succ n ih =>
    intro i hi
    cases i with
    | zero => rfl
    | succ j =>
      rw [List.replicate_succ, List.getD_cons_succ]
      exact ih j (Nat.lt_of_succ_lt_succ hi)

/-- Counterexample to C9: with `config.do_residual = True` and two mid layers,
the very first attention layer of `GATLayered` is constructed with
`do_residual=True` (and `concat=True`) — it is not the residual-free layer the
claim describes. -/
theorem first_layer_residual_cex :
    (gatLayeredFlags true 2).head? =
      some { do_residual := true, concat := true } ∧
    ¬ ((gatLayeredFlags true 2).head? =
      some { do_residual := false, concat := true }) := by
  constructor
  · decide
  · decide

/-- C9 as amended: in `GATLayered` it is the very last layer that has no
residual and does not concatenate heads (it averages them, `concat=False`),
while every mid layer — the first included — applies the residual policy
`config.do_residual` and concatenates its heads. -/
theorem gat_layered_flags_correct (do_res : Bool) (nmid : Nat) :
    (gatLayeredFlags do_res nmid).getLast? =
      some { do_residual := false, concat := false } ∧
    ∀ i, i < nmid →
      (gatLayeredFlags do_res nmid).getD i { do_residual := false, concat := false } =
        { do_residual := do_res, concat := true } := by
  constructor
  · unfold gatLayeredFlags
    rw [List.getLast?_concat]
  · intro i hi
    unfold gatLayeredFlags
    rw [List.getD_append]
    · exact getD_replicate_of_lt _ _ nmid i hi
    · rw [List.length_replicate]
      exact hi

/-- Witness for C9's amended statement at `do_residual=True`, two mid
layers. -/
theorem gat_layered_flags_witness :
    (gatLayeredFlags true 2).getLast? =
      some { do_residual := false, concat := false } ∧
    (0 < 2) ∧
    (gatLayeredFlags true 2).getD 0 { do_residual := false, concat := false } =
      { do_residual := true, concat := true } :=
  ⟨(gat_layered_flags_correct true 2).1, by decide,
   (gat_layered_flags_correct true 2).2 0 (by decide)⟩

/-- C10: a node whose mask row is all zero (no edges into the attention
support) has an empty softmax support; the layer's special case emits a
defined all-zero output for that row, for every head (every choice of logits
and value projections), never a NaN — in the model, the output is total and
exactly `0`. -/
theorem isolated_node_zero_output (n d : Nat) (mask : Fin n → Fin n → Bool)
    (expLogit : Fin n → Fin n → ℚ) (value : Fin n → Fin d → ℚ) (i : Fin n)
    (h : ∀ j, mask i j = false) :
    ∀ c, graphAttentionHead n d mask expLogit value i c = 0 := by
  intro c
  unfold graphAttentionHead
  have hd : (∑ j : Fin n, if mask i j then expLogit i j else 0) = 0 := by
    apply Finset.sum_eq_zero
    intro j _
    rw [h j]
    simp
  simp [hd]

/-- Witness for C10: the 3-node graph with the single edge `(0,1)`; node 2's
output is the zero vector. -/
theorem isolated_node_zero_output_witness :
    (∀ j : Fin 3, mkMask [(0,1)] 3 2 j = false) ∧
    (∀ c : Fin 1, graphAttentionHead 3 1 (mkMask [(0,1)] 3)
        (fun _ _ => 1) (fun _ _ => 1) 2 c = 0) :=
  ⟨by decide,
   isolated_node_zero_output 3 1 (mkMask [(0,1)] 3)
     (fun _ _ => 1) (fun _ _ => 1) 2 (by decide)⟩
